import Mathlib

/-!
Verification of the JSON-to-parquet transformation pipeline in
`src/main.py` (repository `peopletransformdata`).

The development shallowly embeds the core of the program:

* `flattenFuel` / `flatten_json_string` embed `flatten_json_string` and its
  inner `_flatten` (src/main.py lines 39-66): recursive flattening of a
  nested JSON value into a single-level ordered dictionary.  Python
  `dict.update` semantics (an existing key's value is overwritten in
  place, a new key is appended) are modelled by `dinsert` / `updList`.
* `toRecords` / `assembleBatch` / `json_string_to_parquet_minio` embed the
  record extraction and tabularisation steps of
  `json_string_to_parquet_minio` (src/main.py lines 121-153), with
  `pdDataFrame` modelling `pandas.DataFrame` applied to a list of
  dictionaries (columns in first-seen key order, missing keys padded with
  null); `pyarrow` encoding of the resulting batches is modelled as
  total, which it is on the empty and homogeneous batches at issue here.
* `list_objects_in_minio_folder`, `destObjectName`, `processObject` and
  `runPipeline` embed the discovery step and the per-object loop of
  `main` (src/main.py lines 28-36 and 156-203); the object store is
  abstracted as a listing result, a reader function and a write-success
  predicate.

JSON values are a mutual inductive family (`Json` / `JList` / `JObj`).
The recursion of `_flatten` over this family is expressed with an
explicit fuel parameter (structural recursion on `Nat`): the top-level
wrapper instantiates the fuel with the total node count `jsize`, which
strictly dominates the recursion depth, so the out-of-fuel case is never
reached; every lemma below carries the corresponding `jsize _ ≤ fuel`
bound and is instantiated at `fuel = jsize _`.  This keeps every
definition computable and lets concrete instances evaluate inside
proofs.
-/

mutual
/-- A parsed JSON value, as produced by Python `json.loads`: the closed
sum of null, booleans, numbers, strings, arrays and objects.  Objects
keep their fields in definition order, as Python dicts do; `json.loads`
never produces an object with duplicate keys. -/
inductive Json where
  | null
  | bool (b : Bool)
  | num (n : Int)
  | str (s : String)
  | arr (l : JList)
  | obj (m : JObj)

/-- The elements of a JSON array, in order. -/
inductive JList where
  | nil
  | cons (hd : Json) (tl : JList)

/-- The fields of a JSON object, in definition order. -/
inductive JObj where
  | nil
  | cons (k : String) (v : Json) (tl : JObj)
end

/-- View the elements of a JSON array as an ordinary list. -/
def JList.toList : JList → List Json
  | JList.nil => []
  | JList.cons hd tl => hd :: JList.toList tl

/-- Build a JSON array payload from an ordinary list. -/
def JList.ofList : List Json → JList
  | [] => JList.nil
  | j :: t => JList.cons j (JList.ofList t)

/-- View the fields of a JSON object as an ordinary association list. -/
def JObj.toList : JObj → List (String × Json)
  | JObj.nil => []
  | JObj.cons k v tl => (k, v) :: JObj.toList tl

/-- Build a JSON object payload from an ordinary association list. -/
def JObj.ofList : List (String × Json) → JObj
  | [] => JObj.nil
  | (k, v) :: t => JObj.cons k v (JObj.ofList t)

/-- Python `d[k]` on a parsed object: the value of the first field named
`k` (parsed objects never repeat a key), or nothing when the key is
absent. -/
def JObj.lookup (k : String) : JObj → Option Json
  | JObj.nil => none
  | JObj.cons k0 v tl => if k0 = k then some v else JObj.lookup k tl

mutual
/-- Total node count of a JSON value; every scalar counts 1 and every
composite counts 1 plus its children.  It strictly dominates the nesting
depth and serves as recursion fuel below. -/
def jsize : Json → Nat
  | Json.null => 1
  | Json.bool _ => 1
  | Json.num _ => 1
  | Json.str _ => 1
  | Json.arr l => 1 + lsize l
  | Json.obj m => 1 + msize m
termination_by structural j => j

/-- Summed node count of the elements of a JSON array. -/
def lsize : JList → Nat
  | JList.nil => 0
  | JList.cons hd tl => jsize hd + lsize tl
termination_by structural l => l

/-- Summed node count of the field values of a JSON object. -/
def msize : JObj → Nat
  | JObj.nil => 0
  | JObj.cons _ v tl => jsize v + msize tl
termination_by structural m => m
end

/-- A flattened record: an insertion-ordered dictionary from path keys to
(scalar) JSON values, modelling the Python dict built by `_flatten`. -/
abbrev Flat := List (String × Json)

/-- `isScalar j` holds exactly when `j` is not a composite (Object or
Array) value. -/
def isScalar : Json → Bool
  | Json.arr _ => false
  | Json.obj _ => false
  | _ => true

/-- Python `d[k] = v` on an ordered dict: if the key is present its value
is overwritten in place, otherwise the pair is appended at the end. -/
def dinsert (k : String) (v : Json) : Flat → Flat
  | [] => [(k, v)]
  | (k0, v0) :: rest => if k0 = k then (k0, v) :: rest else (k0, v0) :: dinsert k v rest

/-- Python `acc.update(d)`: fold `dinsert` over the entries of `d` in
order. -/
def updList (acc : Flat) (d : Flat) : Flat :=
  d.foldl (fun a kv => dinsert kv.1 kv.2 a) acc

/-- The key construction of `_flatten` (src/main.py lines 51 and 55):
`parent + sep + k` when the parent path is nonempty, else `k` alone (the
empty string is falsy in Python). -/
def mkKey (parent sep k : String) : String :=
  if parent = "" then k else parent ++ sep ++ k

/-- The object loop of `_flatten` (src/main.py lines 49-52): starting
from `acc`, update with the result of `f` on each field in field
order. -/
def objLoop (f : String × Json → Flat) (acc : Flat) : List (String × Json) → Flat
  | [] => acc
  | kv :: rest => objLoop f (updList acc (f kv)) rest

/-- The array loop of `_flatten` (src/main.py lines 53-56): starting from
`acc`, update with the result of `f` on each element, indices counting
up from `i`. -/
def arrLoop (f : Nat × Json → Flat) (i : Nat) (acc : Flat) : List Json → Flat
  | [] => acc
  | v :: rest => arrLoop f (i + 1) (updList acc (f (i, v))) rest

/-- `_flatten` (src/main.py lines 47-59): a scalar records itself under
the current path; an object updates an initially empty dict with the
flattening of each field value under the extended path; an array does
the same with decimal element indices as path components.  The fuel
decreases at each level of nesting; with fuel at least `jsize` of the
value the out-of-fuel case is unreachable. -/
def flattenFuel (sep : String) (fuel : Nat) (parent : String) (j : Json) : Flat :=
  match fuel with
  | 0 => []
  | fuel + 1 =>
    match j with
    | Json.null => [(parent, Json.null)]
    | Json.bool b => [(parent, Json.bool b)]
    | Json.num n => [(parent, Json.num n)]
    | Json.str s => [(parent, Json.str s)]
    | Json.arr l =>
        arrLoop (fun iv => flattenFuel sep fuel (mkKey parent sep (toString iv.1)) iv.2) 0 [] l.toList
    | Json.obj m =>
        objLoop (fun kv => flattenFuel sep fuel (mkKey parent sep kv.1) kv.2) [] m.toList
termination_by structural fuel

/-- `flatten_json_string` (src/main.py lines 39-66) applied to an already
parsed value: flatten from the root with empty parent path and separator
`sep` (default `_`, as in the source). -/
def flatten_json_string (j : Json) (sep : String := "_") : Flat :=
  flattenFuel sep (jsize j) "" j

example : flatten_json_string
    (Json.obj (JObj.ofList
      [("a", Json.obj (JObj.ofList
        [("b", Json.num 1), ("c", Json.arr (JList.ofList [Json.num 2, Json.num 3]))]))])) "_"
    = [("a_b", Json.num 1), ("a_c_0", Json.num 2), ("a_c_1", Json.num 3)] := by
  with_unfolding_all rfl

example : flatten_json_string
    (Json.obj (JObj.ofList [("a", Json.obj (JObj.ofList [("b", Json.num 1)])), ("a_b", Json.num 2)])) "_"
    = [("a_b", Json.num 2)] := by
  with_unfolding_all rfl

example : flatten_json_string (Json.num 5) "_" = [("", Json.num 5)] := by
  with_unfolding_all rfl

example : flatten_json_string (Json.arr (JList.ofList [Json.num 1, Json.num 2])) "_"
    = [("0", Json.num 1), ("1", Json.num 2)] := by
  with_unfolding_all rfl

/-! ## Record assembly (`json_string_to_parquet_minio`, src/main.py lines 121-153) -/

/-- The Python exceptions that the transform steps of
`json_string_to_parquet_minio` can raise; all of them are caught by the
surrounding `try`/`except`, which prints an error and produces no
output. -/
inductive PyErr where
  | malformedInput
  | keyError
  | indexError
  | typeError

/-- The record-set determination of `json_string_to_parquet_minio`
(src/main.py lines 122-124 and the `for record in data` loop): a dict is
unconditionally replaced by the one-element list `[data["results"][0]]`
(`KeyError` when `results` is absent, `IndexError` on an empty array or
string, first character of a non-empty string, `KeyError` on a dict —
JSON object keys are strings, never the integer 0 — and `TypeError` on
null/bool/number); a list yields its elements; a string is iterated
character by character; any other scalar is not iterable
(`TypeError`). -/
def toRecords : Json → Except PyErr (List Json)
  | Json.obj m =>
      match m.lookup "results" with
      | none => Except.error PyErr.keyError
      | some (Json.arr JList.nil) => Except.error PyErr.indexError
      | some (Json.arr (JList.cons x _)) => Except.ok [x]
      | some (Json.str s) =>
          match s.data with
          | [] => Except.error PyErr.indexError
          | c :: _ => Except.ok [Json.str (String.mk [c])]
      | some (Json.obj _) => Except.error PyErr.keyError
      | some _ => Except.error PyErr.typeError
  | Json.arr l => Except.ok l.toList
  | Json.str s => Except.ok (s.data.map (fun c => Json.str (String.mk [c])))
  | _ => Except.error PyErr.typeError

/-- A tabular batch: a resolved column list plus one row per record, each
row listing one value per column.  Models the `pandas.DataFrame` /
`pyarrow.Table` pair built in src/main.py lines 132-133. -/
structure Batch where
  columns : List String
  rows : List (List Json)

/-- Append a key to the column list unless it is already present. -/
def insertCol (cols : List String) (k : String) : List String :=
  if k ∈ cols then cols else cols ++ [k]

/-- The column set `pandas.DataFrame` resolves for a list of dicts: all
keys, in first-seen order (records in sequence order, keys in record
order). -/
def unionCols (records : List Flat) : List String :=
  records.foldl (fun cols r => r.foldl (fun cs kv => insertCol cs kv.1) cols) []

/-- One materialized row: the record's value for each column, with
missing keys padded by Null (pandas uses NaN; the spec reads it as
Null). -/
def padRow (cols : List String) (r : Flat) : List Json :=
  cols.map (fun c => match List.lookup c r with | some v => v | none => Json.null)

/-- `pandas.DataFrame(records)` on a list of dicts (src/main.py line
132): columns are the first-seen union of keys and each record is padded
to the full column list. -/
def pdDataFrame (records : List Flat) : Batch :=
  { columns := unionCols records, rows := records.map (padRow (unionCols records)) }

/-- The parse/extract/flatten/tabularise steps of
`json_string_to_parquet_minio` (src/main.py lines 122-132).  The input
is the result of `json.loads` on the raw text (`none` when the text was
unreadable or unparseable, in which case `json.loads`/`TypeError` raises
`MalformedInput`-style); each record is dumped and re-flattened with the
default separator (the round trip through `json.dumps` is the
identity on parsed values, and `flatten_json_string` never returns
`None` on it). -/
def assembleBatch (input : Option Json) : Except PyErr Batch :=
  match input with
  | none => Except.error PyErr.malformedInput
  | some data =>
      match toRecords data with
      | Except.error e => Except.error e
      | Except.ok records => Except.ok (pdDataFrame (records.map (fun r => flatten_json_string r)))

/-- `json_string_to_parquet_minio` (src/main.py lines 101-153) as a
whole: on any caught exception nothing is written and the result is
`none`; otherwise the batch is encoded (pyarrow succeeds on the batches
at issue, including the empty one) and written to `destName` when the
object store accepts the write, yielding the written object.  The
surrounding `try`/`except` turns a failed write into `none` as well. -/
def json_string_to_parquet_minio (input : Option Json) (writeOk : String → Bool)
    (destName : String) : Option (String × Batch) :=
  match assembleBatch input with
  | Except.error _ => none
  | Except.ok b => if writeOk destName then some (destName, b) else none

/-! ## Pipeline (`main` and `list_objects_in_minio_folder`) -/

/-- Failure of the object-store listing call. -/
inductive StoreErr where
  | unavailable

/-- `list_objects_in_minio_folder` (src/main.py lines 10-36): the result
of the store's listing call is either a list of object names or an
exception; the surrounding `try`/`except` catches any exception, prints
an error and returns the empty list. -/
def list_objects_in_minio_folder (r : Except StoreErr (List String)) : List String :=
  match r with
  | Except.ok l => l
  | Except.error _ => []

/-- Python `src.split("/")` on characters, single-character separator
`/`: splitting the empty string yields one empty component, and each
separator starts a new component. -/
def splitSlash : List Char → List (List Char)
  | [] => [[]]
  | c :: cs =>
      match splitSlash cs, decide (c = '/') with
      | r, true => [] :: r
      | [], false => [[c]]
      | t :: ts, false => (c :: t) :: ts

/-- Python `.replace(".json", ".parquet")` (src/main.py line 189):
replace every non-overlapping occurrence of `.json`, scanning left to
right. -/
def replaceJsonParquet : List Char → List Char
  | '.' :: 'j' :: 's' :: 'o' :: 'n' :: rest =>
      '.' :: 'p' :: 'a' :: 'r' :: 'q' :: 'u' :: 'e' :: 't' :: replaceJsonParquet rest
  | c :: rest => c :: replaceJsonParquet rest
  | [] => []

/-- Whether the character list contains an occurrence of `.json`. -/
def containsJson : List Char → Bool
  | [] => false
  | c :: cs => if c = '.' ∧ cs.take 4 = ['j', 's', 'o', 'n'] then true else containsJson cs

/-- The partition-path part of the destination name built at src/main.py
line 189. -/
def partitionPath (y mo d h : Nat) : String :=
  "year=" ++ toString y ++ "/month=" ++ toString mo ++ "/day=" ++ toString d ++
    "/hour=" ++ toString h ++ "/"

/-- The destination object name (src/main.py line 189):
the partition path followed by the source name's last `/`-component with
every `.json` occurrence replaced by `.parquet`. -/
def destObjectName (y mo d h : Nat) (src : String) : String :=
  partitionPath y mo d h ++ String.mk (replaceJsonParquet ((splitSlash src.data).getLastD []))

/-- The recorded outcome of one iteration of `main`'s per-object loop:
either nothing was written (an error was printed somewhere along the
way) or the encoded batch was written to the derived destination. -/
inductive Outcome where
  | failed (source : String)
  | succeeded (source dest : String) (b : Batch)

/-- One iteration of `main`'s per-object loop (src/main.py lines
176-203): read the object (`reader` returns the parsed content, or
`none` on a read or parse failure — `read_json_from_minio` returns
`None` on any exception and `json.loads(None)` then raises inside the
caught region), derive the destination name, and hand both to
`json_string_to_parquet_minio`. -/
def processObject (reader : String → Option Json) (writeOk : String → Bool)
    (y mo d h : Nat) (name : String) : Outcome :=
  match json_string_to_parquet_minio (reader name) writeOk (destObjectName y mo d h name) with
  | none => Outcome.failed name
  | some (dest, b) => Outcome.succeeded name dest b

/-- `main` (src/main.py lines 156-203): list the source objects (an
empty list when discovery failed) and process each in order, collecting
the per-object outcomes. -/
def runPipeline (r : Except StoreErr (List String)) (reader : String → Option Json)
    (writeOk : String → Bool) (y mo d h : Nat) : List Outcome :=
  (list_objects_in_minio_folder r).map (processObject reader writeOk y mo d h)

example : destObjectName 2025 12 19 14 "year=2025/month=12/day=19/hour=14/person_0329.json"
    = "year=2025/month=12/day=19/hour=14/person_0329.parquet" := by
  with_unfolding_all rfl

example : destObjectName 2025 12 19 14 "year=2025/month=12/day=19/hour=14/a.json.json"
    = "year=2025/month=12/day=19/hour=14/a.parquet.parquet" := by
  with_unfolding_all rfl

example : assembleBatch (some (Json.arr JList.nil)) = Except.ok (Batch.mk [] []) := by
  with_unfolding_all rfl

example : assembleBatch (some (Json.obj (JObj.ofList [("x", Json.num 1)])))
    = Except.error PyErr.keyError := by
  with_unfolding_all rfl

example : assembleBatch (some (Json.obj (JObj.ofList [("results", Json.arr JList.nil)])))
    = Except.error PyErr.indexError := by
  with_unfolding_all rfl

example : assembleBatch (some (Json.arr (JList.ofList
      [Json.obj (JObj.ofList [("x", Json.num 1)]), Json.obj (JObj.ofList [("y", Json.num 2)])])))
    = Except.ok (Batch.mk ["x", "y"] [[Json.num 1, Json.null], [Json.null, Json.num 2]]) := by
  with_unfolding_all rfl

example : assembleBatch (some (Json.obj (JObj.ofList [("results", Json.arr (JList.ofList
      [Json.obj (JObj.ofList [("x", Json.num 1)]), Json.obj (JObj.ofList [("x", Json.num 2)])]))])))
    = Except.ok (Batch.mk ["x"] [[Json.num 1]]) := by
  with_unfolding_all rfl

/-! ## Ordered-dictionary lemmas -/

/-- The value stored for `a` by the LAST entry of `d` carrying key `a`,
if any: the "last writer" of that key in a sequence of Python dict
assignments. -/
def lastVal (a : String) : Flat → Option Json
  | [] => none
  | (k, v) :: rest =>
      match lastVal a rest with
      | some w => some w
      | none => if k = a then some v else none

theorem dinsert_keys (k : String) (v : Json) (l : Flat) :
    (dinsert k v l).map Prod.fst =
      if k ∈ l.map Prod.fst then l.map Prod.fst else l.map Prod.fst ++ [k] := by
  induction l with
  | nil => simp [dinsert]
  | cons kv rest ih =>
      obtain ⟨k0, v0⟩ := kv
      by_cases h : k0 = k
      · subst h
        simp [dinsert]
      · simp only [dinsert, if_neg h, List.map_cons, ih]
        by_cases hm : k ∈ rest.map Prod.fst
        · simp [hm, Ne.symm h]
        · simp [hm, Ne.symm h]

theorem lookup_dinsert (a k : String) (v : Json) (l : Flat) :
    List.lookup a (dinsert k v l) = if a = k then some v else List.lookup a l := by
  induction l with
  | nil =>
      by_cases h : a = k
      · simp [dinsert, List.lookup, h]
      · simp [dinsert, List.lookup, h, beq_false_of_ne h]
  | cons kv rest ih =>
      obtain ⟨k0, v0⟩ := kv
      by_cases h : k0 = k
      · subst h
        by_cases ha : a = k0
        · simp [dinsert, List.lookup, ha]
        · simp [dinsert, List.lookup, ha, beq_false_of_ne ha]
      · by_cases ha : a = k0
        · subst ha
          have hak : ¬ a = k := fun hh => h (hh ▸ rfl)
          simp [dinsert, if_neg h, List.lookup, hak]
        · simp [dinsert, if_neg h, List.lookup, beq_false_of_ne ha, ih]

theorem dinsert_nodup (k : String) (v : Json) (l : Flat)
    (h : (l.map Prod.fst).Nodup) : ((dinsert k v l).map Prod.fst).Nodup := by
  rw [dinsert_keys]
  by_cases hm : k ∈ l.map Prod.fst
  · simpa [hm] using h
  · simp only [hm, if_false]
    refine List.Nodup.append h (List.nodup_singleton k) ?_
    intro a ha hb
    rw [List.mem_singleton] at hb
    subst hb
    exact hm ha

theorem dinsert_eq_append (k : String) (v : Json) (l : Flat)
    (h : k ∉ l.map Prod.fst) : dinsert k v l = l ++ [(k, v)] := by
  induction l with
  | nil => simp [dinsert]
  | cons kv rest ih =>
      obtain ⟨k0, v0⟩ := kv
      simp only [List.map_cons, List.mem_cons] at h
      push_neg at h
      simp [dinsert, Ne.symm h.1, ih h.2]

theorem updList_nil (acc : Flat) : updList acc [] = acc := rfl

theorem updList_cons (acc : Flat) (k : String) (v : Json) (d : Flat) :
    updList acc ((k, v) :: d) = updList (dinsert k v acc) d := rfl

theorem updList_append (acc : Flat) (d1 d2 : Flat) :
    updList acc (d1 ++ d2) = updList (updList acc d1) d2 := by
  simp [updList, List.foldl_append]

theorem updList_nodup (acc d : Flat) (h : (acc.map Prod.fst).Nodup) :
    ((updList acc d).map Prod.fst).Nodup := by
  induction d generalizing acc with
  | nil => simpa [updList_nil] using h
  | cons kv rest ih =>
      obtain ⟨k, v⟩ := kv
      rw [updList_cons]
      exact ih _ (dinsert_nodup k v acc h)

theorem lastVal_append (a : String) (d1 d2 : Flat) :
    lastVal a (d1 ++ d2) =
      match lastVal a d2 with
      | some w => some w
      | none => lastVal a d1 := by
  induction d1 with
  | nil =>
      rcases h2 : lastVal a d2 with _ | w <;> simp [lastVal, h2]
  | cons kv rest ih =>
      obtain ⟨k, v⟩ := kv
      simp only [List.cons_append, lastVal, List.append_eq]
      rw [ih]
      rcases h2 : lastVal a d2 with _ | w <;>
        rcases hr : lastVal a rest with _ | u <;> simp

theorem lookup_updList (a : String) (acc d : Flat) :
    List.lookup a (updList acc d) =
      match lastVal a d with
      | some w => some w
      | none => List.lookup a acc := by
  induction d generalizing acc with
  | nil => simp [updList_nil, lastVal]
  | cons kv rest ih =>
      obtain ⟨k, v⟩ := kv
      rw [updList_cons, ih]
      rcases hrest : lastVal a rest with _ | w
      · simp only [lastVal, hrest, lookup_dinsert]
        by_cases h : a = k
        · subst h
          simp
        · have hka : ¬ k = a := fun hh => h (hh ▸ rfl)
          simp [h, hka]
      · simp [lastVal, hrest]

theorem lookup_eq_none_of_not_mem (a : String) (l : Flat) (h : a ∉ l.map Prod.fst) :
    List.lookup a l = none := by
  induction l with
  | nil => rfl
  | cons kv rest ih =>
      obtain ⟨k, v⟩ := kv
      simp only [List.map_cons, List.mem_cons] at h
      push_neg at h
      simp [List.lookup, beq_false_of_ne h.1, ih h.2]

theorem lastVal_eq_lookup (a : String) (l : Flat) (h : (l.map Prod.fst).Nodup) :
    lastVal a l = List.lookup a l := by
  induction l with
  | nil => simp [lastVal, List.lookup]
  | cons kv rest ih =>
      obtain ⟨k, v⟩ := kv
      simp only [List.map_cons, List.nodup_cons] at h
      have ihr := ih h.2
      by_cases hak : a = k
      · subst hak
        have hnone : lastVal a rest = none := by
          rw [ihr]
          exact lookup_eq_none_of_not_mem a rest h.1
        simp [lastVal, hnone, List.lookup]
      · have hka : ¬ k = a := fun hh => hak (hh ▸ rfl)
        rcases hrest : lastVal a rest with _ | w

        · simp [lastVal, hrest, List.lookup, beq_false_of_ne hak, hka, ← ihr]
        · simp [lastVal, hrest, List.lookup, beq_false_of_ne hak, ← ihr]

theorem updList_eq_append (acc d : Flat) (hd : (d.map Prod.fst).Nodup)
    (hdisj : ∀ k ∈ d.map Prod.fst, k ∉ acc.map Prod.fst) :
    updList acc d = acc ++ d := by
  induction d generalizing acc with
  | nil => simp [updList_nil]
  | cons kv rest ih =>
      obtain ⟨k, v⟩ := kv
      simp only [List.map_cons, List.nodup_cons] at hd
      have h1 : k ∉ acc.map Prod.fst := hdisj k (by simp)
      rw [updList_cons, dinsert_eq_append k v acc h1]
      have h2 : ∀ a ∈ rest.map Prod.fst, a ∉ (acc ++ [(k, v)]).map Prod.fst := by
        intro a ha
        simp only [List.map_append, List.mem_append, List.map_cons, List.map_nil,
          List.mem_singleton]
        push_neg
        constructor
        · exact hdisj a (by simp [ha])
        · intro hk
          exact hd.1 (hk ▸ ha)
      rw [ih (acc ++ [(k, v)]) hd.2 h2]
      simp

/-! ## Leaf enumeration and counting -/

mutual
/-- Number of scalar leaves of a JSON value: 1 for a scalar, the sum over
the children for a composite (an empty array or object has none). -/
def leafCount : Json → Nat
  | Json.arr l => leafCountArr l
  | Json.obj m => leafCountObj m
  | _ => 1
termination_by structural j => j

/-- Summed leaf count of the elements of a JSON array. -/
def leafCountArr : JList → Nat
  | JList.nil => 0
  | JList.cons hd tl => leafCount hd + leafCountArr tl
termination_by structural l => l

/-- Summed leaf count of the field values of a JSON object. -/
def leafCountObj : JObj → Nat
  | JObj.nil => 0
  | JObj.cons _ v tl => leafCount v + leafCountObj tl
termination_by structural m => m
end

/-- The leaf paths of a JSON value in traversal order, with the scalar
each path reaches — the raw sequence of assignments `_flatten` performs,
before Python dict semantics merge any equal keys.  Same fuel discipline
as `flattenFuel`. -/
def leavesFuel (sep : String) (fuel : Nat) (parent : String) (j : Json) : List (String × Json) :=
  match fuel with
  | 0 => []
  | fuel + 1 =>
    match j with
    | Json.null => [(parent, Json.null)]
    | Json.bool b => [(parent, Json.bool b)]
    | Json.num n => [(parent, Json.num n)]
    | Json.str s => [(parent, Json.str s)]
    | Json.arr l =>
        (List.enumFrom 0 l.toList).flatMap
          (fun iv => leavesFuel sep fuel (mkKey parent sep (toString iv.1)) iv.2)
    | Json.obj m =>
        m.toList.flatMap (fun kv => leavesFuel sep fuel (mkKey parent sep kv.1) kv.2)
termination_by structural fuel

/-- The leaf paths of a JSON value from a given parent path, fuelled by
the node count as in `flatten_json_string`. -/
def leaves (sep parent : String) (j : Json) : List (String × Json) :=
  leavesFuel sep (jsize j) parent j

/-! ## Size bounds -/

theorem jsize_pos : ∀ j : Json, 1 ≤ jsize j := by
  intro j
  cases j <;> simp [jsize]

theorem msize_eq_sum : ∀ m : JObj, msize m = (m.toList.map (fun kv => jsize kv.2)).sum
  | JObj.nil => by simp [msize, JObj.toList]
  | JObj.cons k v tl => by simp [msize, JObj.toList, msize_eq_sum tl]

theorem lsize_eq_sum : ∀ l : JList, lsize l = (l.toList.map jsize).sum
  | JList.nil => by simp [lsize, JList.toList]
  | JList.cons hd tl => by simp [lsize, JList.toList, lsize_eq_sum tl]

theorem jsize_le_msize (m : JObj) (kv : String × Json) (h : kv ∈ m.toList) :
    jsize kv.2 ≤ msize m := by
  rw [msize_eq_sum]
  exact List.single_le_sum (fun x _ => Nat.zero_le x) _ (List.mem_map_of_mem _ h)

theorem jsize_le_lsize (l : JList) (v : Json) (h : v ∈ l.toList) :
    jsize v ≤ lsize l := by
  rw [lsize_eq_sum]
  exact List.single_le_sum (fun x _ => Nat.zero_le x) _ (List.mem_map_of_mem _ h)

theorem snd_mem_of_mem_enumFrom {α : Type} (l : List α) (i : Nat) (iv : Nat × α)
    (h : iv ∈ List.enumFrom i l) : iv.2 ∈ l := by
  have : iv.2 ∈ (List.enumFrom i l).map Prod.snd := List.mem_map_of_mem _ h
  simpa [List.enumFrom_map_snd] using this

/-! ## Flattening: values are scalars, keys do not repeat -/

/-- Every value stored in the dict is a scalar. -/
def AllScalar (d : Flat) : Prop := ∀ kv ∈ d, isScalar kv.2 = true

theorem mem_dinsert (kv : String × Json) (k : String) (v : Json) :
    ∀ l : Flat, kv ∈ dinsert k v l → kv.2 = v ∨ kv ∈ l := by
  intro l
  induction l with
  | nil =>
      intro h
      rw [List.mem_singleton.mp h]
      exact Or.inl rfl
  | cons kv0 rest ih =>
      obtain ⟨k0, v0⟩ := kv0
      intro h
      by_cases hk : k0 = k
      · rw [show dinsert k v ((k0, v0) :: rest) = (k0, v) :: rest from by simp [dinsert, hk]] at h
        rcases List.mem_cons.mp h with h1 | h1
        · exact Or.inl (by rw [h1])
        · exact Or.inr (List.mem_cons_of_mem _ h1)
      · rw [show dinsert k v ((k0, v0) :: rest) = (k0, v0) :: dinsert k v rest from by
            simp [dinsert, hk]] at h
        rcases List.mem_cons.mp h with h1 | h1
        · rw [h1]
          exact Or.inr (List.mem_cons_self _ _)
        · rcases ih h1 with h2 | h2
          · exact Or.inl h2
          · exact Or.inr (List.mem_cons_of_mem _ h2)

theorem dinsert_scalar (k : String) (v : Json) (l : Flat)
    (hl : AllScalar l) (hv : isScalar v = true) : AllScalar (dinsert k v l) := by
  intro kv hkv
  rcases mem_dinsert kv k v l hkv with h | h
  · rw [h]
    exact hv
  · exact hl kv h

theorem updList_scalar (acc d : Flat) (hacc : AllScalar acc) (hd : AllScalar d) :
    AllScalar (updList acc d) := by
  induction d generalizing acc with
  | nil => simpa [updList_nil] using hacc
  | cons kv rest ih =>
      obtain ⟨k, v⟩ := kv
      rw [updList_cons]
      refine ih _ (dinsert_scalar k v acc hacc (hd (k, v) (List.mem_cons_self _ _))) ?_
      exact fun x hx => hd x (List.mem_cons_of_mem _ hx)

theorem objLoop_scalar (f : String × Json → Flat) :
    ∀ (entries : List (String × Json)) (acc : Flat),
      (∀ kv ∈ entries, AllScalar (f kv)) → AllScalar acc → AllScalar (objLoop f acc entries) := by
  intro entries
  induction entries with
  | nil => intro acc _ hacc; simpa [objLoop] using hacc
  | cons kv rest ih =>
      intro acc hf hacc
      simp only [objLoop]
      refine ih _ (fun x hx => hf x (List.mem_cons_of_mem _ hx)) ?_
      exact updList_scalar acc (f kv) hacc (hf kv (List.mem_cons_self _ _))

theorem arrLoop_scalar (f : Nat × Json → Flat) :
    ∀ (l : List Json) (i : Nat) (acc : Flat),
      (∀ iv ∈ List.enumFrom i l, AllScalar (f iv)) → AllScalar acc →
        AllScalar (arrLoop f i acc l) := by
  intro l
  induction l with
  | nil => intro i acc _ hacc; simpa [arrLoop] using hacc
  | cons v rest ih =>
      intro i acc hf hacc
      simp only [arrLoop]
      refine ih (i + 1) _ (fun x hx => hf x ?_) ?_
      · rw [List.enumFrom_cons]
        exact List.mem_cons_of_mem _ hx
      · refine updList_scalar acc (f (i, v)) hacc (hf (i, v) ?_)
        rw [List.enumFrom_cons]
        exact List.mem_cons_self _ _

theorem flattenFuel_scalar : ∀ (fuel : Nat) (sep parent : String) (j : Json),
    AllScalar (flattenFuel sep fuel parent j) := by
  intro fuel
  induction fuel with
  | zero => intro sep parent j kv hkv; simp [flattenFuel] at hkv
  | succ fuel ih =>
      intro sep parent j
      cases j with
      | null => intro kv hkv; simp only [flattenFuel, List.mem_singleton] at hkv; subst hkv; rfl
      | bool b => intro kv hkv; simp only [flattenFuel, List.mem_singleton] at hkv; subst hkv; rfl
      | num n => intro kv hkv; simp only [flattenFuel, List.mem_singleton] at hkv; subst hkv; rfl
      | str s => intro kv hkv; simp only [flattenFuel, List.mem_singleton] at hkv; subst hkv; rfl
      | arr l =>
          simp only [flattenFuel]
          exact arrLoop_scalar _ l.toList 0 []
            (fun iv _ => ih sep (mkKey parent sep (toString iv.1)) iv.2)
            (fun kv hkv => absurd hkv (List.not_mem_nil kv))
      | obj m =>
          simp only [flattenFuel]
          exact objLoop_scalar _ m.toList []
            (fun kv _ => ih sep (mkKey parent sep kv.1) kv.2)
            (fun kv hkv => absurd hkv (List.not_mem_nil kv))

theorem objLoop_nodup (f : String × Json → Flat) :
    ∀ (entries : List (String × Json)) (acc : Flat),
      (acc.map Prod.fst).Nodup → ((objLoop f acc entries).map Prod.fst).Nodup := by
  intro entries
  induction entries with
  | nil => intro acc hacc; simpa [objLoop] using hacc
  | cons kv rest ih =>
      intro acc hacc
      simp only [objLoop]
      exact ih _ (updList_nodup acc (f kv) hacc)

theorem arrLoop_nodup (f : Nat × Json → Flat) :
    ∀ (l : List Json) (i : Nat) (acc : Flat),
      (acc.map Prod.fst).Nodup → ((arrLoop f i acc l).map Prod.fst).Nodup := by
  intro l
  induction l with
  | nil => intro i acc hacc; simpa [arrLoop] using hacc
  | cons v rest ih =>
      intro i acc hacc
      simp only [arrLoop]
      exact ih (i + 1) _ (updList_nodup acc (f (i, v)) hacc)

theorem flattenFuel_nodup : ∀ (fuel : Nat) (sep parent : String) (j : Json),
    ((flattenFuel sep fuel parent j).map Prod.fst).Nodup := by
  intro fuel sep parent j
  cases fuel with
  | zero => simp [flattenFuel]
  | succ fuel =>
      cases j with
      | null => simp [flattenFuel]
      | bool b => simp [flattenFuel]
      | num n => simp [flattenFuel]
      | str s => simp [flattenFuel]
      | arr l => exact arrLoop_nodup _ l.toList 0 [] (by simp)
      | obj m => exact objLoop_nodup _ m.toList [] (by simp)

/-! ## Flattening as leaf enumeration -/

theorem objLoop_eq_append (f g : String × Json → Flat) :
    ∀ (entries : List (String × Json)) (acc : Flat),
      (∀ kv ∈ entries, f kv = g kv) →
      ((acc ++ entries.flatMap g).map Prod.fst).Nodup →
      objLoop f acc entries = acc ++ entries.flatMap g := by
  intro entries
  induction entries with
  | nil => intro acc _ _; simp [objLoop]
  | cons kv rest ih =>
      intro acc hfg hnd
      have hstep : acc ++ (kv :: rest).flatMap g = (acc ++ g kv) ++ rest.flatMap g := by
        simp [List.flatMap_cons, List.append_assoc]
      rw [hstep] at hnd
      have hnd2 : ((acc ++ g kv).map Prod.fst).Nodup := by
        rw [List.map_append] at hnd
        exact (List.nodup_append.mp hnd).1
      have hupd : updList acc (f kv) = acc ++ g kv := by
        rw [hfg kv (List.mem_cons_self _ _)]
        refine updList_eq_append acc (g kv) ?_ ?_
        · rw [List.map_append] at hnd2
          exact (List.nodup_append.mp hnd2).2.1
        · intro a ha hmem
          rw [List.map_append] at hnd2
          exact (List.nodup_append.mp hnd2).2.2 hmem ha
      simp only [objLoop, hupd]
      rw [ih (acc ++ g kv) (fun x hx => hfg x (List.mem_cons_of_mem _ hx)) hnd, hstep]

theorem arrLoop_eq_append (f g : Nat × Json → Flat) :
    ∀ (l : List Json) (i : Nat) (acc : Flat),
      (∀ iv ∈ List.enumFrom i l, f iv = g iv) →
      ((acc ++ (List.enumFrom i l).flatMap g).map Prod.fst).Nodup →
      arrLoop f i acc l = acc ++ (List.enumFrom i l).flatMap g := by
  intro l
  induction l with
  | nil => intro i acc _ _; simp [arrLoop]
  | cons v rest ih =>
      intro i acc hfg hnd
      rw [List.enumFrom_cons] at hfg hnd ⊢
      have hstep : acc ++ ((i, v) :: List.enumFrom (i + 1) rest).flatMap g
          = (acc ++ g (i, v)) ++ (List.enumFrom (i + 1) rest).flatMap g := by
        simp [List.flatMap_cons, List.append_assoc]
      rw [hstep] at hnd
      have hnd2 : ((acc ++ g (i, v)).map Prod.fst).Nodup := by
        rw [List.map_append] at hnd
        exact (List.nodup_append.mp hnd).1
      have hupd : updList acc (f (i, v)) = acc ++ g (i, v) := by
        rw [hfg (i, v) (List.mem_cons_self _ _)]
        refine updList_eq_append acc (g (i, v)) ?_ ?_
        · rw [List.map_append] at hnd2
          exact (List.nodup_append.mp hnd2).2.1
        · intro a ha hmem
          rw [List.map_append] at hnd2
          exact (List.nodup_append.mp hnd2).2.2 hmem ha
      simp only [arrLoop, hupd]
      rw [ih (i + 1) (acc ++ g (i, v)) (fun x hx => hfg x (List.mem_cons_of_mem _ hx)) hnd, hstep]

theorem nodup_of_mem_flatMap {α : Type} (g : α → Flat) (l : List α) (x : α)
    (hx : x ∈ l) (hnd : ((l.flatMap g).map Prod.fst).Nodup) :
    ((g x).map Prod.fst).Nodup := by
  have hsub : List.Sublist (g x) (l.flatMap g) := by
    have : g x ∈ l.map g := List.mem_map_of_mem g hx
    simpa [List.flatMap] using List.sublist_flatten_of_mem this
  exact hnd.sublist (hsub.map Prod.fst)

theorem flattenFuel_eq_leavesFuel : ∀ (fuel : Nat) (sep parent : String) (j : Json),
    jsize j ≤ fuel → ((leavesFuel sep fuel parent j).map Prod.fst).Nodup →
    flattenFuel sep fuel parent j = leavesFuel sep fuel parent j := by
  intro fuel
  induction fuel with
  | zero =>
      intro sep parent j hj _
      have := jsize_pos j
      omega
  | succ fuel ih =>
      intro sep parent j hj hnd
      cases j with
      | null => rfl
      | bool b => rfl
      | num n => rfl
      | str s => rfl
      | arr l =>
          simp only [flattenFuel, leavesFuel] at hnd ⊢
          refine arrLoop_eq_append _ _ l.toList 0 [] ?_ (by simpa using hnd)
          intro iv hiv
          refine ih sep (mkKey parent sep (toString iv.1)) iv.2 ?_ ?_
          · have h1 : jsize iv.2 ≤ lsize l :=
              jsize_le_lsize l iv.2 (snd_mem_of_mem_enumFrom l.toList 0 iv hiv)
            have h2 : jsize (Json.arr l) = 1 + lsize l := by simp [jsize]
            omega
          · exact nodup_of_mem_flatMap _ _ iv hiv hnd
      | obj m =>
          simp only [flattenFuel, leavesFuel] at hnd ⊢
          refine objLoop_eq_append _ _ m.toList [] ?_ (by simpa using hnd)
          intro kv hkv
          refine ih sep (mkKey parent sep kv.1) kv.2 ?_ ?_
          · have h1 : jsize kv.2 ≤ msize m := jsize_le_msize m kv hkv
            have h2 : jsize (Json.obj m) = 1 + msize m := by simp [jsize]
            omega
          · exact nodup_of_mem_flatMap _ _ kv hkv hnd

/-! ## Leaf counting -/

theorem leafCountObj_eq_sum : ∀ m : JObj,
    leafCountObj m = (m.toList.map (fun kv => leafCount kv.2)).sum
  | JObj.nil => by simp [leafCountObj, JObj.toList]
  | JObj.cons k v tl => by simp [leafCountObj, JObj.toList, leafCountObj_eq_sum tl]

theorem leafCountArr_eq_sum : ∀ l : JList, leafCountArr l = (l.toList.map leafCount).sum
  | JList.nil => by simp [leafCountArr, JList.toList]
  | JList.cons hd tl => by simp [leafCountArr, JList.toList, leafCountArr_eq_sum tl]

theorem leavesFuel_length : ∀ (fuel : Nat) (sep parent : String) (j : Json),
    jsize j ≤ fuel → (leavesFuel sep fuel parent j).length = leafCount j := by
  intro fuel
  induction fuel with
  | zero =>
      intro sep parent j hj
      have := jsize_pos j
      omega
  | succ fuel ih =>
      intro sep parent j hj
      cases j with
      | null => simp [leavesFuel, leafCount]
      | bool b => simp [leavesFuel, leafCount]
      | num n => simp [leavesFuel, leafCount]
      | str s => simp [leavesFuel, leafCount]
      | arr l =>
          simp only [leavesFuel, leafCount]
          rw [List.length_flatMap]
          have hcong : (List.enumFrom 0 l.toList).map
                (List.length ∘ fun iv => leavesFuel sep fuel (mkKey parent sep (toString iv.1)) iv.2)
              = (List.enumFrom 0 l.toList).map (fun iv => leafCount iv.2) := by
            refine List.map_congr_left ?_
            intro iv hiv
            have h1 : jsize iv.2 ≤ lsize l :=
              jsize_le_lsize l iv.2 (snd_mem_of_mem_enumFrom l.toList 0 iv hiv)
            have h2 : jsize (Json.arr l) = 1 + lsize l := by simp [jsize]
            exact ih sep (mkKey parent sep (toString iv.1)) iv.2 (by omega)
          rw [hcong]
          have hsnd : (List.enumFrom 0 l.toList).map (fun iv => leafCount iv.2)
              = l.toList.map leafCount := by
            rw [show (fun iv : Nat × Json => leafCount iv.2) = leafCount ∘ Prod.snd from rfl,
              ← List.map_map, List.enumFrom_map_snd]
          rw [hsnd, leafCountArr_eq_sum]
      | obj m =>
          simp only [leavesFuel, leafCount]
          rw [List.length_flatMap]
          have hcong : m.toList.map
                (List.length ∘ fun kv => leavesFuel sep fuel (mkKey parent sep kv.1) kv.2)
              = m.toList.map (fun kv => leafCount kv.2) := by
            refine List.map_congr_left ?_
            intro kv hkv
            have h1 : jsize kv.2 ≤ msize m := jsize_le_msize m kv hkv
            have h2 : jsize (Json.obj m) = 1 + msize m := by simp [jsize]
            exact ih sep (mkKey parent sep kv.1) kv.2 (by omega)
          rw [hcong, leafCountObj_eq_sum]

/-! ## Lookup in the flattened dict: the last leaf writer wins -/

theorem lookup_objLoop (f g : String × Json → Flat) (a : String) :
    ∀ (entries : List (String × Json)) (acc : Flat),
      (∀ kv ∈ entries, List.lookup a (f kv) = lastVal a (g kv)) →
      (∀ kv ∈ entries, ((f kv).map Prod.fst).Nodup) →
      List.lookup a (objLoop f acc entries) =
        match lastVal a (entries.flatMap g) with
        | some w => some w
        | none => List.lookup a acc := by
  intro entries
  induction entries with
  | nil => intro acc _ _; simp [objLoop, lastVal]
  | cons kv rest ih =>
      intro acc hfg hnd
      simp only [objLoop, List.flatMap_cons]
      rw [ih _ (fun x hx => hfg x (List.mem_cons_of_mem _ hx))
        (fun x hx => hnd x (List.mem_cons_of_mem _ hx))]
      rw [lastVal_append, lookup_updList]
      have hlast : lastVal a (f kv) = lastVal a (g kv) := by
        rw [lastVal_eq_lookup a (f kv) (hnd kv (List.mem_cons_self _ _))]
        exact hfg kv (List.mem_cons_self _ _)
      rw [hlast]
      rcases lastVal a (rest.flatMap g) with _ | w <;> rcases lastVal a (g kv) with _ | u <;> simp

theorem lookup_arrLoop (f g : Nat × Json → Flat) (a : String) :
    ∀ (l : List Json) (i : Nat) (acc : Flat),
      (∀ iv ∈ List.enumFrom i l, List.lookup a (f iv) = lastVal a (g iv)) →
      (∀ iv ∈ List.enumFrom i l, ((f iv).map Prod.fst).Nodup) →
      List.lookup a (arrLoop f i acc l) =
        match lastVal a ((List.enumFrom i l).flatMap g) with
        | some w => some w
        | none => List.lookup a acc := by
  intro l
  induction l with
  | nil => intro i acc _ _; simp [arrLoop, lastVal]
  | cons v rest ih =>
      intro i acc hfg hnd
      rw [List.enumFrom_cons] at hfg hnd ⊢
      simp only [arrLoop, List.flatMap_cons]
      rw [ih (i + 1) _ (fun x hx => hfg x (List.mem_cons_of_mem _ hx))
        (fun x hx => hnd x (List.mem_cons_of_mem _ hx))]
      rw [lastVal_append, lookup_updList]
      have hlast : lastVal a (f (i, v)) = lastVal a (g (i, v)) := by
        rw [lastVal_eq_lookup a (f (i, v)) (hnd (i, v) (List.mem_cons_self _ _))]
        exact hfg (i, v) (List.mem_cons_self _ _)
      rw [hlast]
      rcases lastVal a ((List.enumFrom (i + 1) rest).flatMap g) with _ | w <;>
        rcases lastVal a (g (i, v)) with _ | u <;> simp

theorem lookup_flattenFuel : ∀ (fuel : Nat) (sep parent : String) (j : Json) (a : String),
    jsize j ≤ fuel →
    List.lookup a (flattenFuel sep fuel parent j) = lastVal a (leavesFuel sep fuel parent j) := by
  intro fuel
  induction fuel with
  | zero =>
      intro sep parent j a hj
      have := jsize_pos j
      omega
  | succ fuel ih =>
      intro sep parent j a hj
      cases j with
      | null =>
          by_cases h : a = parent
          · subst h
            simp [flattenFuel, leavesFuel, List.lookup, lastVal]
          · have hpa : ¬ parent = a := fun hh => h (hh ▸ rfl)
            simp [flattenFuel, leavesFuel, List.lookup, lastVal, hpa, beq_false_of_ne h]
      | bool b =>
          by_cases h : a = parent
          · subst h
            simp [flattenFuel, leavesFuel, List.lookup, lastVal]
          · have hpa : ¬ parent = a := fun hh => h (hh ▸ rfl)
            simp [flattenFuel, leavesFuel, List.lookup, lastVal, hpa, beq_false_of_ne h]
      | num n =>
          by_cases h : a = parent
          · subst h
            simp [flattenFuel, leavesFuel, List.lookup, lastVal]
          · have hpa : ¬ parent = a := fun hh => h (hh ▸ rfl)
            simp [flattenFuel, leavesFuel, List.lookup, lastVal, hpa, beq_false_of_ne h]
      | str s =>
          by_cases h : a = parent
          · subst h
            simp [flattenFuel, leavesFuel, List.lookup, lastVal]
          · have hpa : ¬ parent = a := fun hh => h (hh ▸ rfl)
            simp [flattenFuel, leavesFuel, List.lookup, lastVal, hpa, beq_false_of_ne h]
      | arr l =>
          simp only [flattenFuel, leavesFuel]
          rw [lookup_arrLoop _ _ a l.toList 0 [] ?hfg ?hnd]
          · rcases lastVal a ((List.enumFrom 0 l.toList).flatMap
                (fun iv => leavesFuel sep fuel (mkKey parent sep (toString iv.1)) iv.2)) with _ | w
            · simp [List.lookup]
            · simp
          case hfg =>
            intro iv hiv
            have h1 : jsize iv.2 ≤ lsize l :=
              jsize_le_lsize l iv.2 (snd_mem_of_mem_enumFrom l.toList 0 iv hiv)
            have h2 : jsize (Json.arr l) = 1 + lsize l := by simp [jsize]
            exact ih sep (mkKey parent sep (toString iv.1)) iv.2 a (by omega)
          case hnd =>
            intro iv _
            exact flattenFuel_nodup fuel sep (mkKey parent sep (toString iv.1)) iv.2
      | obj m =>
          simp only [flattenFuel, leavesFuel]
          rw [lookup_objLoop _ _ a m.toList [] ?hfg ?hnd]
          · rcases lastVal a (m.toList.flatMap
                (fun kv => leavesFuel sep fuel (mkKey parent sep kv.1) kv.2)) with _ | w
            · simp [List.lookup]
            · simp
          case hfg =>
            intro kv hkv
            have h1 : jsize kv.2 ≤ msize m := jsize_le_msize m kv hkv
            have h2 : jsize (Json.obj m) = 1 + msize m := by simp [jsize]
            exact ih sep (mkKey parent sep kv.1) kv.2 a (by omega)
          case hnd =>
            intro kv _
            exact flattenFuel_nodup fuel sep (mkKey parent sep kv.1) kv.2

/-! ## Already-flat objects -/

theorem leavesFuel_scalar (sep parent : String) (v : Json) (fuel : Nat)
    (hv : isScalar v = true) (hf : 1 ≤ fuel) :
    leavesFuel sep fuel parent v = [(parent, v)] := by
  cases fuel with
  | zero => omega
  | succ fuel => cases v <;> simp_all [leavesFuel, isScalar]

theorem flatMap_singleton_id (L : List (String × Json)) (F : String × Json → Flat)
    (h : ∀ kv ∈ L, F kv = [(kv.1, kv.2)]) : L.flatMap F = L := by
  induction L with
  | nil => simp
  | cons kv rest ih =>
      rw [List.flatMap_cons, h kv (List.mem_cons_self _ _),
        ih (fun x hx => h x (List.mem_cons_of_mem _ hx))]
      simp

theorem leavesFuel_flat_obj (sep : String) (fuel : Nat) (m : JObj)
    (hscalar : ∀ kv ∈ m.toList, isScalar kv.2 = true)
    (hfuel : jsize (Json.obj m) ≤ fuel) :
    leavesFuel sep fuel "" (Json.obj m) = m.toList := by
  cases fuel with
  | zero =>
      have := jsize_pos (Json.obj m)
      omega
  | succ fuel =>
      simp only [leavesFuel]
      refine flatMap_singleton_id m.toList _ ?_
      intro kv hkv
      have h1 : jsize kv.2 ≤ msize m := jsize_le_msize m kv hkv
      have h2 : jsize (Json.obj m) = 1 + msize m := by simp [jsize]
      have h3 : 1 ≤ jsize kv.2 := jsize_pos kv.2
      rw [show mkKey "" sep kv.1 = kv.1 from by simp [mkKey]]
      exact leavesFuel_scalar sep kv.1 kv.2 fuel (hscalar kv hkv) (by omega)

/-! ## Claims about the flattener -/

/-- C8: flattening the JSON document with fields `a.b = 1` and
`a.c = [2, 3]` with separator `_` yields exactly the mapping
with entries `a_b = 1`, `a_c_0 = 2` and `a_c_1 = 3`. -/
theorem flatten_example_nested :
    flatten_json_string
      (Json.obj (JObj.ofList
        [("a", Json.obj (JObj.ofList
          [("b", Json.num 1), ("c", Json.arr (JList.ofList [Json.num 2, Json.num 3]))]))])) "_"
    = [("a_b", Json.num 1), ("a_c_0", Json.num 2), ("a_c_1", Json.num 3)] := by
  with_unfolding_all rfl

/-- C5 counterexample: on the document with fields `a = (object with b = 1)`
and `a_b = 2`, the two distinct leaf paths both flatten to the key `a_b`,
so the input has 2 scalar leaves while the flattened output has exactly
one entry — the entry count does not equal the leaf count. -/
theorem flatten_entry_count_counterexample :
    leafCount (Json.obj (JObj.ofList
        [("a", Json.obj (JObj.ofList [("b", Json.num 1)])), ("a_b", Json.num 2)])) = 2 ∧
    (flatten_json_string (Json.obj (JObj.ofList
        [("a", Json.obj (JObj.ofList [("b", Json.num 1)])), ("a_b", Json.num 2)])) "_").length = 1 := by
  constructor
  · with_unfolding_all rfl
  · with_unfolding_all rfl

/-- C5 (amended): for every parseable JSON input, no entry of the
flattened output is an Object or an Array; and the output has exactly one
entry per scalar leaf (entry count equals leaf count) provided the
flattened leaf paths are pairwise distinct — under a separator-induced
key collision the colliding leaves merge into one entry and the count is
smaller. -/
theorem flatten_entry_per_leaf (sep : String) (j : Json) :
    (∀ kv ∈ flatten_json_string j sep, isScalar kv.2 = true) ∧
    (((leaves sep "" j).map Prod.fst).Nodup →
      (flatten_json_string j sep).length = leafCount j) := by
  constructor
  · exact fun kv hkv => flattenFuel_scalar (jsize j) sep "" j kv hkv
  · intro hnd
    rw [flatten_json_string, flattenFuel_eq_leavesFuel (jsize j) sep "" j le_rfl hnd]
    exact leavesFuel_length (jsize j) sep "" j le_rfl

/-- C5 witness: on a collision-free concrete document the entry count
equals the scalar-leaf count. -/
theorem flatten_entry_per_leaf_witness :
    (flatten_json_string (Json.obj (JObj.ofList
        [("x", Json.num 1), ("y", Json.arr (JList.ofList [Json.null, Json.str "s"]))])) "_").length
      = leafCount (Json.obj (JObj.ofList
        [("x", Json.num 1), ("y", Json.arr (JList.ofList [Json.null, Json.str "s"]))])) :=
  (flatten_entry_per_leaf "_" (Json.obj (JObj.ofList
      [("x", Json.num 1), ("y", Json.arr (JList.ofList [Json.null, Json.str "s"]))]))).2
    (by with_unfolding_all decide)

/-- C10: the flattened output never holds two entries with the same key
(Python dict keys are unique), and the value recorded under any key is
the value of the LAST leaf in traversal order whose flattened path equals
that key — later writers overwrite earlier ones in `items.update`, with
no error raised (flattening is a total function). -/
theorem flatten_last_writer_wins (sep : String) (j : Json) :
    ((flatten_json_string j sep).map Prod.fst).Nodup ∧
    ∀ a : String, List.lookup a (flatten_json_string j sep) = lastVal a (leaves sep "" j) := by
  constructor
  · exact flattenFuel_nodup (jsize j) sep "" j
  · exact fun a => lookup_flattenFuel (jsize j) sep "" j a le_rfl

/-- C9: flattening a single-level object whose values are all scalars
yields the object unchanged (the separator is never used, since every
path has the empty parent). -/
theorem flatten_flat_object_id (sep : String) (m : JObj)
    (hscalar : ∀ kv ∈ m.toList, isScalar kv.2 = true)
    (hnodup : (m.toList.map Prod.fst).Nodup) :
    flatten_json_string (Json.obj m) sep = m.toList := by
  have hleaves : leavesFuel sep (jsize (Json.obj m)) "" (Json.obj m) = m.toList :=
    leavesFuel_flat_obj sep (jsize (Json.obj m)) m hscalar le_rfl
  have hnd : ((leavesFuel sep (jsize (Json.obj m)) "" (Json.obj m)).map Prod.fst).Nodup := by
    rw [hleaves]
    exact hnodup
  rw [flatten_json_string, flattenFuel_eq_leavesFuel (jsize (Json.obj m)) sep "" _ le_rfl hnd,
    hleaves]

/-- C9 witness: a concrete flat object with scalar values is returned
unchanged. -/
theorem flatten_flat_object_id_witness :
    flatten_json_string
        (Json.obj (JObj.ofList [("x", Json.num 1), ("y", Json.str "s"), ("z", Json.bool true)])) "_"
      = [("x", Json.num 1), ("y", Json.str "s"), ("z", Json.bool true)] := by
  have h := flatten_flat_object_id "_"
    (JObj.ofList [("x", Json.num 1), ("y", Json.str "s"), ("z", Json.bool true)])
    (by with_unfolding_all decide) (by with_unfolding_all decide)
  simpa [JObj.ofList, JObj.toList] using h

/-! ## Column union: first-seen order -/

/-- Deduplicate a key sequence keeping the first occurrence of each key,
in order: the spec's "ordered union ... in first-seen order". -/
def firstSeen : List String → List String
  | [] => []
  | k :: rest => k :: (firstSeen rest).filter (fun x => decide (x ≠ k))

/-- Fold `insertCol` over a list of keys. -/
def insertAll (cols : List String) (ks : List String) : List String :=
  ks.foldl insertCol cols

theorem insertAll_eq_filter_firstSeen :
    ∀ (ks : List String) (init : List String),
      insertAll init ks = init ++ (firstSeen ks).filter (fun k => decide (k ∉ init)) := by
  intro ks
  induction ks with
  | nil => intro init; simp [insertAll, firstSeen]
  | cons k rest ih =>
      intro init
      have hstep : insertAll init (k :: rest) = insertAll (insertCol init k) rest := rfl
      rw [hstep]
      by_cases hk : k ∈ init
      · rw [show insertCol init k = init from by simp [insertCol, hk], ih init]
        have hfilter : ((firstSeen rest).filter (fun x => decide (x ≠ k))).filter
              (fun x => decide (x ∉ init))
            = (firstSeen rest).filter (fun x => decide (x ∉ init)) := by
          rw [List.filter_filter]
          refine List.filter_congr ?_
          intro x _
          by_cases hx : x ∈ init
          · simp [hx]
          · have hxk : ¬ x = k := fun hh => hx (hh ▸ hk)
            simp [hx, hxk]
        simp only [firstSeen, List.filter_cons]
        rw [show (decide (k ∉ init)) = false from by simp [hk]]
        simp only [Bool.false_eq_true, if_false]
        rw [hfilter]
      · rw [show insertCol init k = init ++ [k] from by simp [insertCol, hk],
          ih (init ++ [k])]
        have hfilter : (firstSeen rest).filter (fun x => decide (x ∉ init ++ [k]))
            = ((firstSeen rest).filter (fun x => decide (x ≠ k))).filter
                (fun x => decide (x ∉ init)) := by
          rw [List.filter_filter]
          refine List.filter_congr ?_
          intro x _
          by_cases hx : x ∈ init
          · have hxk : ¬ x = k := fun hh => hk (hh ▸ hx)
            simp [hx, hxk]
          · by_cases hxk : x = k
            · simp [hxk, hx]
            · simp [hx, hxk]
        rw [hfilter]
        simp only [firstSeen, List.filter_cons]
        rw [show (decide (k ∉ init)) = true from by simp [hk]]
        simp

theorem unionCols_eq_insertAll :
    ∀ (records : List Flat) (init : List String),
      records.foldl (fun cols r => r.foldl (fun cs kv => insertCol cs kv.1) cols) init
        = insertAll init (records.flatMap (fun r => r.map Prod.fst)) := by
  intro records
  induction records with
  | nil => intro init; simp [insertAll]
  | cons r rest ih =>
      intro init
      have hinner : r.foldl (fun cs kv => insertCol cs kv.1) init = insertAll init (r.map Prod.fst) := by
        rw [insertAll, List.foldl_map]
      simp only [List.foldl_cons, List.flatMap_cons, hinner, ih, insertAll, List.foldl_append]

theorem unionCols_eq_firstSeen (records : List Flat) :
    unionCols records = firstSeen (records.flatMap (fun r => r.map Prod.fst)) := by
  rw [unionCols, unionCols_eq_insertAll records [], insertAll_eq_filter_firstSeen]
  simp

/-! ## Claim C4: unified columns with Null padding -/

/-- C4: for every sequence of (already flattened) records, the assembled
batch's columns are the union of all record keys in first-seen order
(records in sequence order, keys in record order), there is one row per
record, and each row lists, for every column, the record's value —
Null-padded when the record lacks that column; concretely, assembling
the two-record array with fields `x = 1` and `y = 2` yields columns
`x, y` and rows `1, Null` and `Null, 2`. -/
theorem assemble_union_columns (records : List Flat) :
    (pdDataFrame records).columns = firstSeen (records.flatMap (fun r => r.map Prod.fst)) ∧
    (pdDataFrame records).rows.length = records.length ∧
    (∀ i, i < records.length →
      (pdDataFrame records).rows.getD i [] =
        (pdDataFrame records).columns.map (fun c =>
          match List.lookup c (records.getD i []) with
          | some v => v
          | none => Json.null)) ∧
    assembleBatch (some (Json.arr (JList.ofList
        [Json.obj (JObj.ofList [("x", Json.num 1)]), Json.obj (JObj.ofList [("y", Json.num 2)])])))
      = Except.ok (Batch.mk ["x", "y"] [[Json.num 1, Json.null], [Json.null, Json.num 2]]) := by
  refine ⟨unionCols_eq_firstSeen records, by simp [pdDataFrame], ?_, by with_unfolding_all rfl⟩
  intro i hi
  have hlen : i < (records.map (padRow (unionCols records))).length := by simpa using hi
  show (records.map (padRow (unionCols records))).getD i [] = _
  rw [List.getD_eq_getElem _ _ hlen, List.getElem_map, ← List.getD_eq_getElem records [] hi]
  rfl

/-- C4 witness: the padding clause evaluated at the concrete two-record
batch — the second row holds Null in the first column. -/
theorem assemble_union_columns_witness :
    (pdDataFrame [[("x", Json.num 1)], [("y", Json.num 2)]]).rows.getD 1 []
      = (pdDataFrame [[("x", Json.num 1)], [("y", Json.num 2)]]).columns.map (fun c =>
          match List.lookup c ([[("x", Json.num 1)], [("y", Json.num 2)]].getD 1 []) with
          | some v => v
          | none => Json.null) :=
  (assemble_union_columns [[("x", Json.num 1)], [("y", Json.num 2)]]).2.2.1 1 (by decide)

/-! ## Claims C1 and C2: record extraction from object-shaped input -/

/-- C1 counterexample: the object with the single field `name = "bob"`
has no `results` field, and assembly fails with `KeyError` instead of
treating the whole object as a single record — no one-row batch is
produced. -/
theorem assemble_object_without_results_counterexample :
    assembleBatch (some (Json.obj (JObj.ofList [("name", Json.str "bob")])))
      = Except.error PyErr.keyError := by
  with_unfolding_all rfl

/-- C1 (amended): an Object input is never treated as a whole single
record — `json_string_to_parquet_minio` unconditionally evaluates
`data["results"][0]`, so for every Object without a `results` field
assembly fails with `KeyError` (caught by the enclosing `except`), and
no output object is written. -/
theorem assemble_object_without_results_fails (m : JObj)
    (h : m.lookup "results" = none) :
    assembleBatch (some (Json.obj m)) = Except.error PyErr.keyError ∧
    ∀ (writeOk : String → Bool) (dest : String),
      json_string_to_parquet_minio (some (Json.obj m)) writeOk dest = none := by
  have h1 : assembleBatch (some (Json.obj m)) = Except.error PyErr.keyError := by
    simp [assembleBatch, toRecords, h]
  exact ⟨h1, fun w dest => by simp [json_string_to_parquet_minio, h1]⟩

/-- C1 witness: the theorem applied to the concrete object with the
single field `x = 1`. -/
theorem assemble_object_without_results_fails_witness :
    assembleBatch (some (Json.obj (JObj.ofList [("x", Json.num 1)])))
      = Except.error PyErr.keyError :=
  (assemble_object_without_results_fails (JObj.ofList [("x", Json.num 1)])
    (by with_unfolding_all rfl)).1

/-- C2 counterexample: assembling the top-level empty array `[]` does
NOT fail — it yields an empty zero-row batch, and the pipeline encodes
and writes it as an (empty) output object. -/
theorem assemble_empty_array_counterexample :
    assembleBatch (some (Json.arr JList.nil)) = Except.ok (Batch.mk [] []) ∧
    json_string_to_parquet_minio (some (Json.arr JList.nil)) (fun _ => true)
        "year=2025/month=12/day=19/hour=14/f.parquet"
      = some ("year=2025/month=12/day=19/hour=14/f.parquet", Batch.mk [] []) := by
  constructor
  · with_unfolding_all rfl
  · with_unfolding_all rfl

/-- C2 (amended): an Object whose `results` array is empty fails
(`IndexError` from `results[0]`, caught; no output written); but the
top-level empty array `[]` yields zero records WITHOUT failing — an
empty zero-row batch is built, encoded and written. -/
theorem assemble_zero_records (m : JObj)
    (h : m.lookup "results" = some (Json.arr JList.nil)) :
    (assembleBatch (some (Json.obj m)) = Except.error PyErr.indexError ∧
     ∀ (writeOk : String → Bool) (dest : String),
       json_string_to_parquet_minio (some (Json.obj m)) writeOk dest = none) ∧
    assembleBatch (some (Json.arr JList.nil)) = Except.ok (Batch.mk [] []) := by
  have h1 : assembleBatch (some (Json.obj m)) = Except.error PyErr.indexError := by
    simp [assembleBatch, toRecords, h]
  exact ⟨⟨h1, fun w dest => by simp [json_string_to_parquet_minio, h1]⟩,
    by with_unfolding_all rfl⟩

/-- C2 witness: the theorem applied to the concrete object whose
`results` field is the empty array. -/
theorem assemble_zero_records_witness :
    assembleBatch (some (Json.obj (JObj.ofList [("results", Json.arr JList.nil)])))
      = Except.error PyErr.indexError :=
  (assemble_zero_records (JObj.ofList [("results", Json.arr JList.nil)])
    (by with_unfolding_all rfl)).1.1

/-! ## Claim C3: discovery failure -/

/-- C3 counterexample: with the listing call failing, the listing
function returns the empty list (the exception is caught and printed)
and the run completes normally with an empty report — it does not fail
with any discovery error. -/
theorem pipeline_discovery_failure_counterexample :
    list_objects_in_minio_folder (Except.error StoreErr.unavailable) = [] ∧
    runPipeline (Except.error StoreErr.unavailable) (fun _ => none) (fun _ => true)
        2025 12 19 14 = [] :=
  ⟨rfl, rfl⟩

/-- C3 (amended): a discovery failure is caught inside
`list_objects_in_minio_folder`, which returns the empty list; the run
then completes normally having processed zero objects.  The run as a
whole never fails — not even for a discovery failure. -/
theorem pipeline_discovery_failure_swallowed (e : StoreErr)
    (reader : String → Option Json) (writeOk : String → Bool) (y mo d h : Nat) :
    list_objects_in_minio_folder (Except.error e) = [] ∧
    runPipeline (Except.error e) reader writeOk y mo d h = [] :=
  ⟨rfl, rfl⟩

/-! ## Claim C7: per-object failure isolation -/

/-- C7: in a run over N discovered objects the report has exactly one
outcome per object; each object's outcome is a function of that object
alone (given the collaborators); and changing the reader's behaviour on
OTHER objects — e.g. making another object's read or parse fail — never
changes this object's outcome, so no single-object failure aborts the
batch. -/
theorem main_processes_every_object (objs : List String) (reader : String → Option Json)
    (writeOk : String → Bool) (y mo d h : Nat) :
    (runPipeline (Except.ok objs) reader writeOk y mo d h).length = objs.length ∧
    ∀ i, i < objs.length →
      (runPipeline (Except.ok objs) reader writeOk y mo d h).getD i (Outcome.failed "")
        = processObject reader writeOk y mo d h (objs.getD i "") ∧
      ∀ reader2 : String → Option Json,
        reader2 (objs.getD i "") = reader (objs.getD i "") →
        (runPipeline (Except.ok objs) reader2 writeOk y mo d h).getD i (Outcome.failed "")
          = (runPipeline (Except.ok objs) reader writeOk y mo d h).getD i (Outcome.failed "") := by
  have hgetD : ∀ (r : String → Option Json) (i : Nat), i < objs.length →
      (runPipeline (Except.ok objs) r writeOk y mo d h).getD i (Outcome.failed "")
        = processObject r writeOk y mo d h (objs.getD i "") := by
    intro r i hi
    show (objs.map (processObject r writeOk y mo d h)).getD i (Outcome.failed "") = _
    have hlen : i < (objs.map (processObject r writeOk y mo d h)).length := by simpa using hi
    rw [List.getD_eq_getElem _ _ hlen, List.getElem_map, ← List.getD_eq_getElem objs "" hi]
  refine ⟨by simp [runPipeline, list_objects_in_minio_folder], ?_⟩
  intro i hi
  refine ⟨hgetD reader i hi, ?_⟩
  intro reader2 hagree
  rw [hgetD reader2 i hi, hgetD reader i hi]
  simp only [processObject, hagree]

/-- C7 witness: with two discovered objects and a reader that fails on
the first, the report still has two outcomes and the second object's
outcome is exactly its own processing result. -/
theorem main_processes_every_object_witness :
    (runPipeline (Except.ok ["a.json", "b.json"])
        (fun s => if s = "b.json" then some (Json.arr JList.nil) else none)
        (fun _ => true) 2025 12 19 14).length = 2 ∧
    (runPipeline (Except.ok ["a.json", "b.json"])
        (fun s => if s = "b.json" then some (Json.arr JList.nil) else none)
        (fun _ => true) 2025 12 19 14).getD 1 (Outcome.failed "")
      = processObject (fun s => if s = "b.json" then some (Json.arr JList.nil) else none)
          (fun _ => true) 2025 12 19 14 "b.json" := by
  have T := main_processes_every_object ["a.json", "b.json"]
    (fun s => if s = "b.json" then some (Json.arr JList.nil) else none)
    (fun _ => true) 2025 12 19 14
  refine ⟨T.1, ?_⟩
  have h2 := (T.2 1 (by decide)).1
  simpa using h2

/-! ## Claim C6: destination name derivation -/

theorem replaceJsonParquet_match (rest : List Char) :
    replaceJsonParquet ('.' :: 'j' :: 's' :: 'o' :: 'n' :: rest)
      = '.' :: 'p' :: 'a' :: 'r' :: 'q' :: 'u' :: 'e' :: 't' :: replaceJsonParquet rest := rfl

theorem replaceJsonParquet_nomatch (c : Char) (cs : List Char)
    (h : ¬ (c = '.' ∧ cs.take 4 = ['j', 's', 'o', 'n'])) :
    replaceJsonParquet (c :: cs) = c :: replaceJsonParquet cs := by
  rw [replaceJsonParquet.eq_def]
  split
  · rename_i rest heq
    rw [List.cons.injEq] at heq
    obtain ⟨hc, hcs⟩ := heq
    exact absurd ⟨hc, by rw [hcs]; rfl⟩ h
  · rename_i c2 rest heq
    rw [List.cons.injEq] at heq
    rw [heq.1, heq.2]
  · rename_i heq
    exact absurd heq (List.cons_ne_nil c cs)

theorem replaceJsonParquet_append_ext :
    ∀ stem : List Char, containsJson stem = false →
      replaceJsonParquet (stem ++ ('.' :: 'j' :: 's' :: 'o' :: 'n' :: []))
        = stem ++ ('.' :: 'p' :: 'a' :: 'r' :: 'q' :: 'u' :: 'e' :: 't' :: []) := by
  intro stem
  induction stem with
  | nil => intro _; rfl
  | cons c cs ih =>
      intro h
      simp only [containsJson] at h
      by_cases harm : c = '.' ∧ cs.take 4 = ['j', 's', 'o', 'n']
      · rw [if_pos harm] at h
        exact absurd h (by simp)
      · rw [if_neg harm] at h
        have hnm : ¬ (c = '.' ∧
            (cs ++ ('.' :: 'j' :: 's' :: 'o' :: 'n' :: [])).take 4 = ['j', 's', 'o', 'n']) := by
          rintro ⟨hc, htake⟩
          rcases cs with _ | ⟨a, _ | ⟨b, _ | ⟨d, _ | ⟨e, tail⟩⟩⟩⟩
          · simp at htake
          · simp at htake
          · simp at htake
          · simp at htake
          · have h4 : (a :: b :: d :: e :: tail).take 4 = ['j', 's', 'o', 'n'] := by
              have hle : 4 ≤ (a :: b :: d :: e :: tail).length := by simp
              rw [List.take_append_of_le_length hle] at htake
              exact htake
            exact harm ⟨hc, h4⟩
        rw [List.cons_append, replaceJsonParquet_nomatch c _ hnm, ih h, List.cons_append]

/-- C6 counterexample: for the source filename `a.json.json`, the code
replaces BOTH occurrences of `.json`, yielding `a.parquet.parquet` —
not `a.json.parquet`, which replacing only the extension would give;
the rest of the filename is not preserved. -/
theorem dest_object_name_counterexample :
    destObjectName 2025 12 19 14 "year=2025/month=12/day=19/hour=14/a.json.json"
      = "year=2025/month=12/day=19/hour=14/a.parquet.parquet" ∧
    destObjectName 2025 12 19 14 "year=2025/month=12/day=19/hour=14/a.json.json"
      ≠ "year=2025/month=12/day=19/hour=14/a.json.parquet" := by
  constructor
  · with_unfolding_all rfl
  · with_unfolding_all decide

/-- C6 (amended): the destination identifier is
`year=Y/month=M/day=D/hour=H/{filename}` where the filename is the
source identifier's last `/`-component with EVERY occurrence of `.json`
replaced by `.parquet`; in particular, when `.json` occurs in that
filename only as the final extension, exactly the extension changes and
the rest of the filename is preserved. -/
theorem dest_object_name_extension (y mo d h : Nat) (src : String) (stem : List Char)
    (hlast : (splitSlash src.data).getLastD []
      = stem ++ ('.' :: 'j' :: 's' :: 'o' :: 'n' :: []))
    (hnc : containsJson stem = false) :
    destObjectName y mo d h src
      = partitionPath y mo d h
          ++ String.mk (stem ++ ('.' :: 'p' :: 'a' :: 'r' :: 'q' :: 'u' :: 'e' :: 't' :: [])) := by
  rw [destObjectName, hlast, replaceJsonParquet_append_ext stem hnc]

/-- C6 witness: the theorem applied to the real partition layout and the
filename `person_0329.json`, whose stem has no other `.json`
occurrence. -/
theorem dest_object_name_extension_witness :
    destObjectName 2025 12 19 14 "year=2025/month=12/day=19/hour=14/person_0329.json"
      = partitionPath 2025 12 19 14
          ++ String.mk ("person_0329".data
              ++ ('.' :: 'p' :: 'a' :: 'r' :: 'q' :: 'u' :: 'e' :: 't' :: [])) :=
  dest_object_name_extension 2025 12 19 14 "year=2025/month=12/day=19/hour=14/person_0329.json"
    ("person_0329".data) (by with_unfolding_all rfl) (by with_unfolding_all rfl)
